import Mathlib

/-!
# Verification of the `skv` typed key-value facade

Shallow embedding of the two near-duplicate implementations of the `skv`
package (the bitcask-backed variant in `unnamed/part_000` and the
bbolt-backed variant in `skv.go`), together with proofs about the primary
store facade and the tag-index maintenance protocol.

Modelling conventions:
* The storage engine is an opaque byte-keyed map.  It is modelled as an
  association list `DB.entries`; both engines iterate keys in
  lexicographic byte order, which for the ordered variants is captured by
  a `Pairwise keyLt` hypothesis where iteration order matters.
* Go strings are Lean `String`s; Go's `bytes.Compare` style byte order is
  modelled by `keyLt`, lexicographic comparison of the character lists
  (UTF-8 preserves code-point order, so this agrees with byte order).
* `encoding/gob` output is modelled by the inductive `GobBytes`: a blob
  either encodes a value of the store's element type `T` (`encVal`) or a
  member-key set `map[string]struct{}` (`encSet`).  Decoding a blob at
  the wrong type fails; the Go code ignores `Decode`'s error, leaving the
  output at its zero value, which is modelled by `Option.getD default`.
* The nil/absent sentinel of Go (`gob` refuses to encode a nil pointer)
  is modelled by a caller-chosen predicate `isNil : T → Bool`; `gobEncode`
  fails with `Err.gobEncodeFailed` exactly on nil values.
* A stored entry whose engine-level read fails with an error other than
  key-not-found (bitcask `ErrKeyExpired` on a TTL-expired entry, or
  `ErrChecksumFailed`) is modelled by `Stored.bad`.
-/

set_option autoImplicit false
set_option linter.unusedSectionVars false

namespace Skv

/-- Lexicographic (byte/code-point) comparison of key contents, modelling
Go's ordering of byte-slice keys. -/
def charsLt : List Char → List Char → Bool
  | _, [] => false
  | [], _ :: _ => true
  | a :: as, b :: bs => if a = b then charsLt as bs else decide (a.toNat < b.toNat)

/-- `keyLt s t` is true when key `s` sorts strictly before key `t`. -/
def keyLt (s t : String) : Bool := charsLt s.data t.data

/-- `hasPrefixKey p s` models Go's `bytes.HasPrefix([]byte(s), []byte(p))`. -/
def hasPrefixKey (p s : String) : Bool := p.data.isPrefixOf s.data

/-- Model of `encoding/gob` encoded bytes stored in the engine: either the
encoding of a value of the store's element type `T`, or the encoding of a
member-key set `map[string]struct{}` (a tag entry). -/
inductive GobBytes (T : Type) where
  | encVal : T → GobBytes T
  | encSet : List String → GobBytes T
  deriving DecidableEq

/-- What the engine holds for a key: readable bytes, or an entry whose
read fails with a non-NotFound engine error (a TTL-expired entry —
bitcask returns `ErrKeyExpired`, which `Get` does not translate — or a
checksum failure). -/
inductive Stored (T : Type) where
  | good : GobBytes T → Stored T
  | bad : Stored T
  deriving DecidableEq

/-- Errors visible in the embedding:
`notFound` is `skv.ErrNotFound`; `badValue` is `skv.ErrBadValue`
(declared by the package); `gobEncodeFailed` is the error returned by
`gob.Encoder.Encode` on the nil sentinel; `keyNotFound` is the engine's
own `bitcask.ErrKeyNotFound`; `engineReadFailed` stands for any other
engine read error (`ErrKeyExpired`, `ErrChecksumFailed`, ...). -/
inductive Err where
  | notFound
  | badValue
  | gobEncodeFailed
  | keyNotFound
  | engineReadFailed
  deriving DecidableEq

variable {T : Type} [DecidableEq T] [Inhabited T]

/-- `decodeVal b` models `gob.Decoder.Decode` into a `*T`: it succeeds
exactly when the bytes encode a `T`. -/
def decodeVal : GobBytes T → Option T
  | .encVal v => some v
  | .encSet _ => none

/-- `decodeSet b` models `gob.Decoder.Decode` into a `*map[string]struct{}`:
it succeeds exactly when the bytes encode a member-key set. -/
def decodeSet : GobBytes T → Option (List String)
  | .encVal _ => none
  | .encSet s => some s

/-- Decode bytes as a `T`, Go style: the `Decode` error is ignored, so a
failed decode (or an unreadable entry) leaves the `new(T)` zero value. -/
def decodeValD : Stored T → T
  | .good b => (decodeVal b).getD default
  | .bad => default

/-- `gob.Encoder.Encode(value)`: fails exactly on the nil/absent sentinel
(`gob: cannot encode nil pointer`), otherwise produces the encoding. -/
def gobEncode (isNil : T → Bool) (v : T) : Except Err (GobBytes T) :=
  if isNil v then .error .gobEncodeFailed else .ok (.encVal v)

/-- The engine state: one keyspace mapping key strings to stored entries.
Both backends keep keys unique and iterate them in key order. -/
structure DB (T : Type) where
  entries : List (String × Stored T)
  deriving DecidableEq

/-- Insert or overwrite a key, keeping the key-ordered representation the
ordered engines maintain. -/
def putEntries (k : String) (v : Stored T) : List (String × Stored T) → List (String × Stored T)
  | [] => [(k, v)]
  | e :: rest =>
    if k = e.1 then (k, v) :: rest
    else if keyLt k e.1 then (k, v) :: e :: rest
    else e :: putEntries k v rest

/-- Engine point insert/overwrite. -/
def DB.put (db : DB T) (k : String) (v : Stored T) : DB T :=
  ⟨putEntries k v db.entries⟩

/-- Engine point lookup. -/
def DB.lookup (db : DB T) (k : String) : Option (Stored T) :=
  (db.entries.find? (fun e => e.1 == k)).map (fun e => e.2)

/-- Engine point delete: removes the key's entry (the engines keep keys
unique, so removing every matching entry is removing the one entry). -/
def DB.del (db : DB T) (k : String) : DB T :=
  ⟨db.entries.filter (fun e => e.1 != k)⟩

/-- `kvs.db.Get`: `.error .keyNotFound` models `bitcask.ErrKeyNotFound`;
an unreadable entry yields a different engine error. -/
def engineGet (db : DB T) (k : String) : Except Err (GobBytes T) :=
  match db.lookup k with
  | none => .error .keyNotFound
  | some .bad => .error .engineReadFailed
  | some (.good b) => .ok b

/-- `fmt.Sprintf(CacheTagPattern, tag)` with `CacheTagPattern = "db_tag_%s"`. -/
def tagKeyOf (tag : String) : String := "db_tag_" ++ tag

/-- `KVStore.Put` (part_000 lines 79-85): gob-encode, then store.  There is
no nil check: the only errors are the encoder's and the engine's. -/
def Put (isNil : T → Bool) (db : DB T) (key : String) (value : T) : DB T × Option Err :=
  match gobEncode isNil value with
  | .error e => (db, some e)
  | .ok b => (db.put key (.good b), none)

/-- `KVStore.Get` (part_000 lines 181-197): `bitcask.ErrKeyNotFound` is
translated to `ErrNotFound`, any other engine error is passed through, and
the gob `Decode` error is discarded (`d.Decode(output)` at line 195), so a
failed decode returns the zero value with a nil error. -/
def Get (db : DB T) (key : String) : T × Option Err :=
  match engineGet db key with
  | .error .keyNotFound => (default, some .notFound)
  | .error e => (default, some e)
  | .ok b => ((decodeVal b).getD default, none)

/-- `KVStore.Delete` (part_000 lines 267-269): delegates to the engine's
delete, which removes the entry; no theorem relies on the engine's result
for an absent key. -/
def Delete (db : DB T) (key : String) : DB T × Option Err :=
  (db.del key, none)

/-- Insert a member key into a tag set if absent, modelling
`if _, exists := cacheKeys[key]; exists { continue }` followed by
`cacheKeys[key] = struct{}{}` (part_000 lines 143-147). -/
def setInsert (key : String) (s : List String) : List String :=
  if key ∈ s then s else s ++ [key]

/-- One iteration of the `saveTags` loop body (part_000 lines 127-156) for
a single tag: read the tag entry (a missing entry or a failed set decode
degrades to the empty set), skip if the key is already a member, otherwise
write back the extended set.  Encoding a set of strings cannot fail, so
the encode-error early return is unreachable, and the write's error is
discarded by the source. -/
def saveTagsOne (db : DB T) (key tag : String) : DB T :=
  let tagKey := tagKeyOf tag
  let cacheKeys : List String :=
    match engineGet db tagKey with
    | .ok b => (decodeSet b).getD []
    | .error _ => []
  if key ∈ cacheKeys then db
  else db.put tagKey (.good (.encSet (setInsert key cacheKeys)))

/-- `KVStore.saveTags` (part_000 lines 122-158): sequentially update each
tag's entry; always returns a nil error in the model (see `saveTagsOne`). -/
def saveTags (db : DB T) (key : String) : List String → DB T × Option Err
  | [] => (db, none)
  | tag :: rest => saveTags (saveTagsOne db key tag) key rest

/-- `KVStore.PutWithTags` (part_000 lines 96-106): primary put, then
`saveTags`. -/
def PutWithTags (isNil : T → Bool) (db : DB T) (key : String) (value : T)
    (tags : List String) : DB T × Option Err :=
  match gobEncode isNil value with
  | .error e => (db, some e)
  | .ok b => saveTags (db.put key (.good b)) key tags

/-- The member loop of `GetWithTag` (part_000 lines 235-249): returns
`none` if some member's primary `Get` fails with an error other than
`ErrNotFound` (the code then aborts the whole call), otherwise the
collected values, the surviving member keys, and whether any stale member
was pruned. -/
def tagLoop (db : DB T) : List String → Option (List T × List String × Bool)
  | [] => some ([], [], false)
  | key :: rest =>
    match Get db key with
    | (_, some .notFound) =>
      (tagLoop db rest).map (fun r => (r.1, r.2.1, true))
    | (_, some _) => none
    | (item, none) =>
      (tagLoop db rest).map (fun r => (item :: r.1, key :: r.2.1, r.2.2))

/-- `KVStore.GetWithTag` (part_000 lines 214-261): read the tag entry (a
missing entry or failed set decode returns the empty sequence with nil
error), walk the member set pruning stale keys, abort to an empty
sequence with nil error on any other member error, and write the pruned
set back only when something was pruned.  The result is
`(output, error, updated store)`. -/
def GetWithTag (db : DB T) (tag : String) : List T × Option Err × DB T :=
  let tagKey := tagKeyOf tag
  let cacheKeys : Option (List String) :=
    match engineGet db tagKey with
    | .ok b => decodeSet b
    | .error _ => none
  match cacheKeys with
  | none => ([], none, db)
  | some keys =>
    match tagLoop db keys with
    | none => ([], none, db)
    | some (out, kept, dirty) =>
      if dirty then (out, none, db.put tagKey (.good (.encSet kept)))
      else (out, none, db)

/-- Shared loop of `Sift`/`Scan` callbacks (part_000 `GetAll` lines
290-303 and `GetWithPrefix` lines 199-212): call `Get` on each key,
aborting with the callback's error. -/
def getLoop (db : DB T) (acc : List T) : List String → List T × Option Err
  | [] => (acc, none)
  | k :: ks =>
    match Get db k with
    | (_, some e) => (acc, some e)
    | (item, none) => getLoop db (acc ++ [item]) ks

/-- `KVStore.GetKeys` (part_000 lines 275-284): `Sift` over every key. -/
def GetKeys (db : DB T) : List String × Option Err :=
  (db.entries.map (fun e => e.1), none)

/-- `KVStore.GetAll` (part_000 lines 290-303): `Get` every live key in
iteration order. -/
def GetAll (db : DB T) : List T × Option Err :=
  getLoop db [] (db.entries.map (fun e => e.1))

/-- `KVStore.GetWithPrefix` (part_000 lines 199-212): the engine `Scan`
visits, in key order, exactly the keys carrying the prefix; each is read
back through `Get`. -/
def getWithPrefixScan (db : DB T) (p : String) : List T × Option Err :=
  getLoop db [] ((db.entries.filter (fun e => hasPrefixKey p e.1)).map (fun e => e.1))

namespace Bolt

/-- `skv.go` `Put` (lines 81-89): identical encode-then-store shape. -/
def Put (isNil : T → Bool) (db : DB T) (key : String) (value : T) : DB T × Option Err :=
  match gobEncode isNil value with
  | .error e => (db, some e)
  | .ok b => (db.put key (.good b), none)

/-- `Cursor.Seek` of bbolt: first entry (in key order) whose key is not
before the target. -/
def seek (db : DB T) (k : String) : Option (String × Stored T) :=
  (db.entries.dropWhile (fun e => keyLt e.1 k)).head?

/-- `skv.go` `Get` (lines 112-126): seek and compare; on a hit the gob
`Decode` error is discarded (line 121), so the zero value is returned
with a nil error on a failed decode. -/
def Get (db : DB T) (key : String) : T × Option Err :=
  match seek db key with
  | none => (default, some .notFound)
  | some e => if e.1 = key then (decodeValD e.2, none) else (default, some .notFound)

/-- `skv.go` `Delete` (lines 151-160): seek and compare; `ErrNotFound`
when the key does not resolve to a live entry, otherwise delete it. -/
def Delete (db : DB T) (key : String) : DB T × Option Err :=
  match seek db key with
  | none => (db, some .notFound)
  | some e => if e.1 = key then (db.del key, none) else (db, some .notFound)

/-- `skv.go` `GetWithPrefix` (lines 128-145): seek to the prefix, iterate
while the prefix matches, decode each hit ignoring the decode error;
always returns a nil error. -/
def getWithPrefixSeek (db : DB T) (p : String) : List T × Option Err :=
  (((db.entries.dropWhile (fun e => keyLt e.1 p)).takeWhile
      (fun e => hasPrefixKey p e.1)).map (fun e => decodeValD e.2), none)

end Bolt

/-! ## Interleaving model of the tag lock (for the concurrency claim)

`saveTags` (part_000 lines 122-125) and `GetWithTag` (lines 220-221)
both hold `kvs.mu.Lock()` for their whole read-modify-write cycle on the
tag entry.  The model below runs two threads, each executing the
critical section of `saveTags` for the same tag (read the member set,
insert its key, write the set back), as a small-step system in which the
lock-acquire step blocks while the mutex is held.  A schedule is the
list of thread ids picked to step; a blocked or finished thread stutters. -/

/-- Thread state: `pc = 0` before `mu.Lock()`, `1` lock held, `2` tag
entry read into the local `cacheKeys` snapshot, `3` updated set written
back, `4` lock released (done). -/
structure TagThread where
  pc : Nat
  snap : List String
  deriving DecidableEq

/-- Shared state: the mutex owner (modelling `kvs.mu`), the member set
currently stored in the tag entry, and the two threads. -/
structure TagSys where
  lockOwner : Option Bool
  tagSet : List String
  thr : Bool → TagThread

/-- Replace one thread's state. -/
def updThr (f : Bool → TagThread) (t : Bool) (v : TagThread) : Bool → TagThread :=
  fun b => if b = t then v else f b

/-- One small step of thread `t`, which is running
`mu.Lock(); read set; set[key t] = {}; write set; mu.Unlock()`.
A thread whose next action is a blocked `Lock`, or which is done,
leaves the state unchanged. -/
def tagStep (key : Bool → String) (c : TagSys) (t : Bool) : TagSys :=
  let tt := c.thr t
  if tt.pc = 0 then
    match c.lockOwner with
    | none => { c with lockOwner := some t, thr := updThr c.thr t { tt with pc := 1 } }
    | some _ => c
  else if tt.pc = 1 then
    { c with thr := updThr c.thr t { pc := 2, snap := c.tagSet } }
  else if tt.pc = 2 then
    { c with tagSet := setInsert (key t) tt.snap, thr := updThr c.thr t { tt with pc := 3 } }
  else if tt.pc = 3 then
    { c with lockOwner := none, thr := updThr c.thr t { tt with pc := 4 } }
  else c

/-- Run a schedule (list of chosen thread ids). -/
def runTags (key : Bool → String) : List Bool → TagSys → TagSys
  | [], c => c
  | t :: rest, c => runTags key rest (tagStep key c t)

/-- Initial state: lock free, tag member set `s0`, both threads before
their `mu.Lock()`. -/
def initTags (s0 : List String) : TagSys :=
  { lockOwner := none, tagSet := s0, thr := fun _ => { pc := 0, snap := [] } }

/-- Thread `t` is inside the lock-protected read-modify-write cycle. -/
def inCSb (c : TagSys) (t : Bool) : Bool :=
  decide (1 ≤ (c.thr t).pc) && decide ((c.thr t).pc ≤ 3)

/-- Inductive invariant of the lock protocol: program counters are in
range; a thread inside the critical section owns the mutex; a thread
that has read but not yet written sees a snapshot equal to the stored
set; a thread that has performed its write has its key in the set. -/
def TagInv (key : Bool → String) (c : TagSys) : Prop :=
  (∀ t, (c.thr t).pc ≤ 4) ∧
  (∀ t, 1 ≤ (c.thr t).pc ∧ (c.thr t).pc ≤ 3 → c.lockOwner = some t) ∧
  (∀ t, (c.thr t).pc = 2 → (c.thr t).snap = c.tagSet) ∧
  (∀ t, 3 ≤ (c.thr t).pc → key t ∈ c.tagSet)

/-! ## Basic lemmas about the engine map -/

theorem lookup_put_self (db : DB T) (k : String) (v : Stored T) :
    (db.put k v).lookup k = some v := by
  rcases db with ⟨l⟩
  simp only [DB.put, DB.lookup]
  induction l with
  | nil => simp [putEntries, List.find?]
  | cons e rest ih =>
    simp only [putEntries]
    by_cases h1 : k = e.1
    · subst h1
      simp [List.find?]
    · by_cases h2 : keyLt k e.1
      · simp [h1, h2, List.find?]
      · simp only [h1, h2, if_false, if_neg]
        simp only [List.find?]
        have : (e.1 == k) = false := by
          simp [beq_iff_eq]
          exact fun hh => h1 hh.symm
        rw [this]
        exact ih

theorem lookup_put_other (db : DB T) (k k2 : String) (v : Stored T) (h : k2 ≠ k) :
    (db.put k v).lookup k2 = db.lookup k2 := by
  rcases db with ⟨l⟩
  simp only [DB.put, DB.lookup]
  induction l with
  | nil =>
    simp only [putEntries, List.find?]
    have : (k == k2) = false := by
      simp [beq_iff_eq]
      exact fun hh => h hh.symm
    simp [this]
  | cons e rest ih =>
    simp only [putEntries]
    have hk2 : (k == k2) = false := by
      simp [beq_iff_eq]
      exact fun hh => h hh.symm
    by_cases h1 : k = e.1
    · subst h1
      simp [List.find?, hk2]
    · by_cases h2 : keyLt k e.1
      · simp [h1, h2, List.find?, hk2]
      · simp only [h1, h2, if_false, if_neg]
        simp only [List.find?]
        cases he : (e.1 == k2) with
        | true => rfl
        | false => exact ih

theorem lookup_del_self (db : DB T) (k : String) : (db.del k).lookup k = none := by
  rcases db with ⟨l⟩
  simp only [DB.del, DB.lookup]
  induction l with
  | nil => simp
  | cons e rest ih =>
    simp only [List.filter]
    cases he : (e.1 != k) with
    | true =>
      simp only [List.find?]
      have : (e.1 == k) = false := by
        simpa [bne] using he
      rw [this]
      exact ih
    | false => exact ih

theorem lookup_del_other (db : DB T) (k k2 : String) (h : k2 ≠ k) :
    (db.del k).lookup k2 = db.lookup k2 := by
  rcases db with ⟨l⟩
  simp only [DB.del, DB.lookup]
  induction l with
  | nil => simp
  | cons e rest ih =>
    simp only [List.filter]
    cases he : (e.1 != k) with
    | true =>
      simp only [List.find?]
      cases h2 : (e.1 == k2) with
      | true => rfl
      | false => exact ih
    | false =>
      have h1 : e.1 = k := by
        simpa [bne] using he
      simp only [List.find?]
      have : (e.1 == k2) = false := by
        simp [beq_iff_eq, h1]
        exact fun hh => h hh.symm
      rw [this]
      exact ih

/-- Characterize `Get` by the engine lookup. -/
theorem Get_eq_lookup (db : DB T) (k : String) :
    Get db k =
      match db.lookup k with
      | none => (default, some Err.notFound)
      | some .bad => (default, some Err.engineReadFailed)
      | some (.good b) => ((decodeVal b).getD default, none) := by
  simp only [Get, engineGet]
  rcases db.lookup k with _ | s
  · rfl
  · rcases s with b | _ <;> rfl

theorem Get_of_lookup_none (db : DB T) (k : String) (h : db.lookup k = none) :
    Get db k = (default, some Err.notFound) := by
  rw [Get_eq_lookup, h]

theorem Get_of_lookup_val (db : DB T) (k : String) (v : T)
    (h : db.lookup k = some (.good (.encVal v))) : Get db k = (v, none) := by
  rw [Get_eq_lookup, h]
  rfl

theorem Get_of_lookup_set (db : DB T) (k : String) (s : List String)
    (h : db.lookup k = some (.good (.encSet s))) : Get db k = (default, none) := by
  rw [Get_eq_lookup, h]
  rfl

theorem Get_of_lookup_bad (db : DB T) (k : String) (h : db.lookup k = some .bad) :
    Get db k = (default, some Err.engineReadFailed) := by
  rw [Get_eq_lookup, h]

theorem charsLt_irrefl (cs : List Char) : charsLt cs cs = false := by
  induction cs with
  | nil => rfl
  | cons c rest ih => simp [charsLt, ih]

theorem keyLt_irrefl (s : String) : keyLt s s = false := charsLt_irrefl s.data

theorem lookup_none_iff (db : DB T) (k : String) :
    db.lookup k = none ↔ ∀ e ∈ db.entries, e.1 ≠ k := by
  unfold DB.lookup
  constructor
  · intro h e he heq
    cases hf : db.entries.find? (fun e => e.1 == k) with
    | none =>
      have := List.find?_eq_none.mp hf e he
      simp [heq] at this
    | some a => simp [hf] at h
  · intro h
    have : db.entries.find? (fun e => e.1 == k) = none := by
      refine List.find?_eq_none.mpr ?_
      intro x hx
      simp only [beq_iff_eq]
      exact h x hx
    simp [this]

theorem del_keys_ne (db : DB T) (k : String) : ∀ e ∈ (db.del k).entries, e.1 ≠ k := by
  intro e he
  simp only [DB.del, List.mem_filter, bne_iff_ne] at he
  exact he.2

/-! ## C4: `Put` and the nil/absent value -/

/-- C4: the claim says `Put` on the nil/absent sentinel returns
`ErrBadValue`.  The code (part_000 lines 79-85 and skv.go lines 81-89)
contains no nil check at all: the result of `Put` is fully described by
the gob encoder, so the only possible errors are `gobEncodeFailed` (the
encoder's own error on a nil value — nothing is stored) and never
`ErrBadValue`; the concrete conjunct evaluates the nil case. -/
theorem C4_put_never_badValue (isNil : T → Bool) :
    (∀ (db : DB T) (k : String) (v : T),
      Put isNil db k v =
        (if isNil v then (db, some Err.gobEncodeFailed)
         else (db.put k (.good (.encVal v)), none)) ∧
      Bolt.Put isNil db k v =
        (if isNil v then (db, some Err.gobEncodeFailed)
         else (db.put k (.good (.encVal v)), none))) ∧
    Put Option.isNone (⟨[]⟩ : DB (Option Nat)) "k" none =
      (⟨[]⟩, some Err.gobEncodeFailed) ∧
    (Err.gobEncodeFailed == Err.badValue) = false := by
  refine ⟨?_, by decide, by decide⟩
  intro db k v
  by_cases h : isNil v = true
  · simp [Put, Bolt.Put, gobEncode, h]
  · simp only [Bool.not_eq_true] at h
    simp [Put, Bolt.Put, gobEncode, h]

/-! ## C8: empty-string keys are ordinary keys -/

/-- C8: `Put` with the empty string as key succeeds for any non-nil value
and a subsequent `Get("")` returns the stored value; `Get` on any absent
key (the empty string included) reports `ErrNotFound`, and the explicit
`Delete` of skv.go reports `ErrNotFound` for an absent empty-string key.
The facade treats `""` exactly like every other key (the engine is
modelled, per the spec, as an opaque byte-keyed map with no key
restrictions). -/
theorem C8_empty_key_ordinary (isNil : T → Bool) (db : DB T) (v : T)
    (hv : isNil v = false) :
    (Put isNil db "" v).2 = none ∧
    Get (Put isNil db "" v).1 "" = (v, none) ∧
    (∀ k, db.lookup k = none → Get db k = (default, some Err.notFound)) ∧
    (db.lookup "" = none →
      Get db "" = (default, some Err.notFound) ∧
      Bolt.Delete db "" = (db, some Err.notFound)) := by
  have hput : Put isNil db "" v = (db.put "" (.good (.encVal v)), none) := by
    simp [Put, gobEncode, hv]
  refine ⟨by rw [hput], ?_, ?_, ?_⟩
  · rw [hput]
    exact Get_of_lookup_val _ _ _ (lookup_put_self db "" (.good (.encVal v)))
  · intro k hk
    exact Get_of_lookup_none db k hk
  · intro h0
    refine ⟨Get_of_lookup_none db "" h0, ?_⟩
    have habs : ∀ e ∈ db.entries, e.1 ≠ "" := (lookup_none_iff db "").mp h0
    simp only [Bolt.Delete, Bolt.seek]
    cases hdrop : (db.entries.dropWhile (fun e => keyLt e.1 "")) with
    | nil => rfl
    | cons a l =>
      have ha : a ∈ db.entries := by
        have hmem : a ∈ db.entries.dropWhile (fun e => keyLt e.1 "") := by
          rw [hdrop]; exact List.mem_cons_self a l
        exact (List.dropWhile_sublist _).mem hmem
      simp [habs a ha]

/-- Witness for C8 at a concrete store and value. -/
theorem C8_empty_key_ordinary_witness :
    ((fun (_ : Nat) => false) (42 : Nat) = false) ∧
    Get (Put (fun (_ : Nat) => false) (⟨[]⟩ : DB Nat) "" 42).1 "" = (42, none) :=
  ⟨rfl, (C8_empty_key_ordinary (fun _ => false) ⟨[]⟩ 42 rfl).2.1⟩

/-! ## C6: `Delete` of an absent key -/

/-- C6: skv.go `Delete` (lines 151-160) returns `ErrNotFound` whenever
the key does not resolve to a live entry, and after a successful delete a
second delete of the same key reports `ErrNotFound` again.  (The bitcask
variant's `Delete` delegates to the engine, whose code is outside this
repository; skv.go implements the check itself.) -/
theorem C6_delete_absent_notFound (db : DB T) (k : String) :
    ((∀ e ∈ db.entries, e.1 ≠ k) → Bolt.Delete db k = (db, some Err.notFound)) ∧
    (db.entries.Pairwise (fun a b => keyLt a.1 b.1 = true) →
      ∀ s, (k, s) ∈ db.entries →
        Bolt.Delete db k = (db.del k, none) ∧
        Bolt.Delete (db.del k) k = (db.del k, some Err.notFound)) := by
  have habsent : ∀ (db2 : DB T), (∀ e ∈ db2.entries, e.1 ≠ k) →
      Bolt.Delete db2 k = (db2, some Err.notFound) := by
    intro db2 habs
    simp only [Bolt.Delete, Bolt.seek]
    cases hdrop : (db2.entries.dropWhile (fun e => keyLt e.1 k)) with
    | nil => rfl
    | cons a l =>
      have ha : a ∈ db2.entries := by
        have hmem : a ∈ db2.entries.dropWhile (fun e => keyLt e.1 k) := by
          rw [hdrop]; exact List.mem_cons_self a l
        exact (List.dropWhile_sublist _).mem hmem
      simp [habs a ha]
  refine ⟨habsent db, ?_⟩
  intro hsort s hmem
  have hseek : Bolt.seek db k = some (k, s) := by
    rcases db with ⟨l⟩
    simp only [Bolt.seek]
    induction l with
    | nil => simp at hmem
    | cons e rest ih =>
      rcases List.mem_cons.mp hmem with he | he
      · subst he
        simp [List.dropWhile, keyLt_irrefl]
      · have hlt : keyLt e.1 k = true := by
          have := (List.pairwise_cons.mp hsort).1 (k, s) he
          exact this
        simp only [List.dropWhile, hlt]
        exact ih (List.pairwise_cons.mp hsort).2 he
  constructor
  · simp [Bolt.Delete, hseek]
  · exact habsent (db.del k) (del_keys_ne db k)

/-- Witness for C6: delete of a never-written key, and a double delete. -/
theorem C6_delete_absent_notFound_witness :
    Bolt.Delete (⟨[("b", .good (.encVal (5 : Nat)))]⟩ : DB Nat) "a" =
      (⟨[("b", .good (.encVal 5))]⟩, some Err.notFound) ∧
    Bolt.Delete (⟨[("b", .good (.encVal (5 : Nat)))]⟩ : DB Nat) "b" = (⟨[]⟩, none) ∧
    Bolt.Delete (⟨[]⟩ : DB Nat) "b" = (⟨[]⟩, some Err.notFound) := by
  refine ⟨?_, ?_, ?_⟩
  · exact (C6_delete_absent_notFound ⟨[("b", .good (.encVal 5))]⟩ "a").1 (by decide)
  · exact ((C6_delete_absent_notFound ⟨[("b", .good (.encVal 5))]⟩ "b").2 (by decide)
      (.good (.encVal 5)) (by decide)).1
  · exact ((C6_delete_absent_notFound ⟨[("b", .good (.encVal (5 : Nat)))]⟩ "b").2 (by decide)
      (.good (.encVal 5)) (by decide)).2

/-! ## Lemmas about the tag machinery -/

theorem putWithTags_single (isNil : T → Bool) (db : DB T) (k : String) (v : T) (t : String)
    (hv : isNil v = false) :
    PutWithTags isNil db k v [t] =
      (saveTagsOne (db.put k (.good (.encVal v))) k t, none) := by
  simp [PutWithTags, gobEncode, hv, saveTags]

theorem saveTagsOne_fresh (db : DB T) (k t : String)
    (h : db.lookup (tagKeyOf t) = none) :
    saveTagsOne db k t = db.put (tagKeyOf t) (.good (.encSet [k])) := by
  simp [saveTagsOne, engineGet, h, setInsert]

theorem saveTagsOne_member (db : DB T) (k t : String) (S : List String)
    (h : db.lookup (tagKeyOf t) = some (.good (.encSet S))) (hm : k ∈ S) :
    saveTagsOne db k t = db := by
  simp [saveTagsOne, engineGet, h, decodeSet, hm]

theorem getWithTag_absent (db : DB T) (t : String)
    (h : db.lookup (tagKeyOf t) = none) : GetWithTag db t = ([], none, db) := by
  simp [GetWithTag, engineGet, h]

theorem getWithTag_of_set (db : DB T) (t : String) (S : List String)
    (h : db.lookup (tagKeyOf t) = some (.good (.encSet S))) :
    GetWithTag db t =
      match tagLoop db S with
      | none => ([], none, db)
      | some (out, kept, dirty) =>
        if dirty then (out, none, db.put (tagKeyOf t) (.good (.encSet kept)))
        else (out, none, db) := by
  have he : engineGet db (tagKeyOf t) = .ok (.encSet S) := by
    simp [engineGet, h]
  simp only [GetWithTag, he, decodeSet]

theorem tagLoop_none_of_err (db : DB T) (S : List String) (m : String) (hm : m ∈ S)
    (e : Err) (he : (Get db m).2 = some e) (hne : e ≠ Err.notFound) :
    tagLoop db S = none := by
  induction S with
  | nil => simp at hm
  | cons a rest ih =>
    rcases List.mem_cons.mp hm with rfl | hmem
    · rcases hget : Get db m with ⟨x, o⟩
      rw [hget] at he
      simp only at he
      subst he
      cases e with
      | notFound => exact absurd rfl hne
      | badValue => simp [tagLoop, hget]
      | gobEncodeFailed => simp [tagLoop, hget]
      | keyNotFound => simp [tagLoop, hget]
      | engineReadFailed => simp [tagLoop, hget]
    · have hrest : tagLoop db rest = none := ih hmem
      rcases hget : Get db a with ⟨x, o⟩
      simp only [tagLoop, hget]
      rcases o with _ | e2
      · simp [hrest]
      · cases e2 <;> simp [hrest]

/-! ## C2: `GetWithTag` error policy -/

/-- C2: when no tag entry exists for `t`, `GetWithTag` returns the empty
sequence with a nil error (part_000 lines 224-233); and when some member
key's primary `Get` fails with any error other than `ErrNotFound`, the
whole call aborts to an empty sequence with a nil error and no tag-entry
write (part_000 lines 245-247). -/
theorem C2_getWithTag_error_policy (db : DB T) (t : String) :
    (db.lookup (tagKeyOf t) = none → GetWithTag db t = ([], none, db)) ∧
    (∀ S, db.lookup (tagKeyOf t) = some (.good (.encSet S)) →
      ∀ m ∈ S, ∀ e, (Get db m).2 = some e → e ≠ Err.notFound →
        GetWithTag db t = ([], none, db)) := by
  refine ⟨getWithTag_absent db t, ?_⟩
  intro S hS m hm e he hne
  rw [getWithTag_of_set db t S hS, tagLoop_none_of_err db S m hm e he hne]

/-- Witness for C2: an absent tag entry, and a member whose entry's
engine read fails (a TTL-expired or corrupt member entry). -/
theorem C2_getWithTag_error_policy_witness :
    (⟨[("db_tag_T", .good (.encSet ["m"])), ("m", .bad)]⟩ : DB Nat).lookup (tagKeyOf "T")
      = some (.good (.encSet ["m"])) ∧
    (Get (⟨[("db_tag_T", .good (.encSet ["m"])), ("m", .bad)]⟩ : DB Nat) "m").2
      = some Err.engineReadFailed ∧
    GetWithTag (⟨[]⟩ : DB Nat) "T" = ([], none, ⟨[]⟩) ∧
    GetWithTag (⟨[("db_tag_T", .good (.encSet ["m"])), ("m", .bad)]⟩ : DB Nat) "T" =
      ([], none, ⟨[("db_tag_T", .good (.encSet ["m"])), ("m", .bad)]⟩) := by
  refine ⟨by decide, by decide, ?_, ?_⟩
  · exact (C2_getWithTag_error_policy (⟨[]⟩ : DB Nat) "T").1 (by decide)
  · exact (C2_getWithTag_error_policy
      (⟨[("db_tag_T", .good (.encSet ["m"])), ("m", .bad)]⟩ : DB Nat) "T").2
      ["m"] (by decide) "m" (by decide) Err.engineReadFailed (by decide) (by decide)

/-! ## C1: tag convergence of the lazy self-healing index -/

/-- C1 counterexample: the claim quantifies over *every* key `k`, but tag
entries live in the primary keyspace under `"db_tag_" ++ tag`, so for
`k = "db_tag_T"` and tag `"T"` the `saveTags` step overwrites the
primary entry just written and the first `GetWithTag("T")` does not
include the stored value `"hello"` (it returns the zero value `""`). -/
theorem C1_tag_convergence_counterexample :
    (GetWithTag (PutWithTags (fun (_ : String) => false)
        (⟨[]⟩ : DB String) "db_tag_T" "hello" ["T"]).1 "T").1 = [""] ∧
    (GetWithTag (PutWithTags (fun (_ : String) => false)
        (⟨[]⟩ : DB String) "db_tag_T" "hello" ["T"]).1 "T").1.count "hello" = 0 := by
  constructor
  · rfl
  · rfl

/-- C1 (amended): for a key `k` distinct from the tag entry key
`"db_tag_" ++ t` (the collision is unguarded by the code), starting from
a store with no tag entry for `t` yet: after
`PutWithTags(k, v, [t])` a `GetWithTag(t)` includes `v`; after a
subsequent `Delete(k)` the next `GetWithTag(t)` no longer includes `v`
(it is empty) and writes the pruned member set back to the tag entry; a
second `GetWithTag(t)` returns the same pruned result and leaves the
store untouched (no further write). -/
theorem C1_tag_convergence (isNil : T → Bool) (db : DB T) (k : String) (v : T) (t : String)
    (hv : isNil v = false) (hk : k ≠ tagKeyOf t)
    (htdb : db.lookup (tagKeyOf t) = none) :
    let db1 := (PutWithTags isNil db k v [t]).1
    let r1 := GetWithTag db1 t
    let db2 := (Delete r1.2.2 k).1
    let r2 := GetWithTag db2 t
    let r3 := GetWithTag r2.2.2 t
    r1 = ([v], none, db1) ∧
    v ∈ r1.1 ∧
    r2.1 = [] ∧
    r2.2.2.lookup (tagKeyOf t) = some (.good (.encSet [])) ∧
    r3.1 = r2.1 ∧
    r3.2.2 = r2.2.2 := by
  intro db1 r1 db2 r2 r3
  have hks : tagKeyOf t ≠ k := Ne.symm hk
  have hdb1 : db1 =
      (db.put k (.good (.encVal v))).put (tagKeyOf t) (.good (.encSet [k])) := by
    show (PutWithTags isNil db k v [t]).1 = _
    rw [putWithTags_single isNil db k v t hv, saveTagsOne_fresh]
    rw [lookup_put_other db k (tagKeyOf t) _ hks]
    exact htdb
  have hl1 : db1.lookup (tagKeyOf t) = some (.good (.encSet [k])) := by
    rw [hdb1]; exact lookup_put_self _ _ _
  have hl2 : db1.lookup k = some (.good (.encVal v)) := by
    rw [hdb1, lookup_put_other _ (tagKeyOf t) k _ hk]
    exact lookup_put_self _ _ _
  have hloop1 : tagLoop db1 [k] = some ([v], [k], false) := by
    simp [tagLoop, Get_of_lookup_val db1 k v hl2]
  have hr1 : r1 = ([v], none, db1) := by
    show GetWithTag db1 t = _
    rw [getWithTag_of_set db1 t [k] hl1, hloop1]
    rfl
  have hdb2 : db2 = db1.del k := by
    show (Delete r1.2.2 k).1 = _
    rw [hr1]
    rfl
  have hl3 : db2.lookup (tagKeyOf t) = some (.good (.encSet [k])) := by
    rw [hdb2, lookup_del_other db1 k (tagKeyOf t) hks]
    exact hl1
  have hl4 : db2.lookup k = none := by
    rw [hdb2]; exact lookup_del_self db1 k
  have hloop2 : tagLoop db2 [k] = some ([], [], true) := by
    simp [tagLoop, Get_of_lookup_none db2 k hl4]
  have hr2 : r2 = ([], none, db2.put (tagKeyOf t) (.good (.encSet []))) := by
    show GetWithTag db2 t = _
    rw [getWithTag_of_set db2 t [k] hl3, hloop2]
    rfl
  have hl5 : r2.2.2.lookup (tagKeyOf t) = some (.good (.encSet [])) := by
    rw [hr2]; exact lookup_put_self _ _ _
  have hr3 : r3 = ([], none, r2.2.2) := by
    show GetWithTag r2.2.2 t = _
    rw [getWithTag_of_set r2.2.2 t [] hl5]
    simp [tagLoop]
  refine ⟨hr1, ?_, ?_, hl5, ?_, ?_⟩
  · rw [hr1]; exact List.mem_singleton.mpr rfl
  · rw [hr2]
  · rw [hr3, hr2]
  · rw [hr3]

/-- Witness for C1 at a concrete fresh store, key, value and tag. -/
theorem C1_tag_convergence_witness :
    (("k" : String) ≠ tagKeyOf "T") ∧
    "hello" ∈ (GetWithTag (PutWithTags (fun (_ : String) => false)
        (⟨[]⟩ : DB String) "k" "hello" ["T"]).1 "T").1 :=
  ⟨by decide,
    (C1_tag_convergence (fun _ => false) ⟨[]⟩ "k" "hello" "T" rfl (by decide) rfl).2.1⟩

/-! ## C3: idempotent tagging -/

/-- C3 counterexample: for `k = "db_tag_T"` (a key colliding with the tag
entry key), after two `PutWithTags(k, "hello", ["T"])` calls the
`GetWithTag("T")` result is `[""]` — it contains zero copies of the value
`"hello"` associated with `k`, not exactly one. -/
theorem C3_idempotent_tagging_counterexample :
    (GetWithTag (PutWithTags (fun (_ : String) => false)
        (PutWithTags (fun (_ : String) => false)
          (⟨[]⟩ : DB String) "db_tag_T" "hello" ["T"]).1
        "db_tag_T" "hello" ["T"]).1 "T").1 = [""] ∧
    (GetWithTag (PutWithTags (fun (_ : String) => false)
        (PutWithTags (fun (_ : String) => false)
          (⟨[]⟩ : DB String) "db_tag_T" "hello" ["T"]).1
        "db_tag_T" "hello" ["T"]).1 "T").1.count "hello" = 0 := by
  constructor
  · rfl
  · rfl

/-- C3 (amended): for a key `k` distinct from the tag entry key
`"db_tag_" ++ t`, starting from a store with no tag entry for `t` yet:
calling `PutWithTags(k, v, [t])` twice leaves the tag entry
containing exactly one occurrence of `k` (re-adding a present member is
a no-op), and `GetWithTag(t)` returns exactly one copy of `v`. -/
theorem C3_idempotent_tagging (isNil : T → Bool) (db : DB T) (k : String) (v : T) (t : String)
    (hv : isNil v = false) (hk : k ≠ tagKeyOf t)
    (htdb : db.lookup (tagKeyOf t) = none) :
    let db2 := (PutWithTags isNil
      (PutWithTags isNil db k v [t]).1 k v [t]).1
    ∃ S, db2.lookup (tagKeyOf t) = some (.good (.encSet S)) ∧
      S.count k = 1 ∧
      GetWithTag db2 t = ([v], none, db2) := by
  intro db2
  have hks : tagKeyOf t ≠ k := Ne.symm hk
  have hdb1 : (PutWithTags isNil db k v [t]).1 =
      (db.put k (.good (.encVal v))).put (tagKeyOf t) (.good (.encSet [k])) := by
    rw [putWithTags_single isNil db k v t hv, saveTagsOne_fresh]
    rw [lookup_put_other db k (tagKeyOf t) _ hks]
    exact htdb
  set dbA := (db.put k (.good (.encVal v))).put (tagKeyOf t) (.good (.encSet [k])) with hA
  have hlA : dbA.lookup (tagKeyOf t) = some (.good (.encSet [k])) :=
    lookup_put_self _ _ _
  have hdb2 : db2 = dbA.put k (.good (.encVal v)) := by
    show (PutWithTags isNil (PutWithTags isNil db k v [t]).1 k v [t]).1 = _
    rw [hdb1, putWithTags_single isNil _ k v t hv]
    rw [saveTagsOne_member (dbA.put k (.good (.encVal v))) k t [k]]
    · rw [lookup_put_other dbA k (tagKeyOf t) _ hks]
      exact hlA
    · exact List.mem_singleton.mpr rfl
  have hl2 : db2.lookup (tagKeyOf t) = some (.good (.encSet [k])) := by
    rw [hdb2, lookup_put_other dbA k (tagKeyOf t) _ hks]
    exact hlA
  have hlk : db2.lookup k = some (.good (.encVal v)) := by
    rw [hdb2]; exact lookup_put_self _ _ _
  refine ⟨[k], hl2, by simp, ?_⟩
  rw [getWithTag_of_set db2 t [k] hl2]
  simp [tagLoop, Get_of_lookup_val db2 k v hlk]

/-- Witness for C3 at a concrete fresh store, key, value and tag. -/
theorem C3_idempotent_tagging_witness :
    (("k" : String) ≠ tagKeyOf "T") ∧
    (∃ S, ((PutWithTags (fun (_ : String) => false)
        (PutWithTags (fun (_ : String) => false)
          (⟨[]⟩ : DB String) "k" "hello" ["T"]).1
        "k" "hello" ["T"]).1).lookup (tagKeyOf "T") = some (.good (.encSet S)) ∧
      S.count "k" = 1 ∧
      GetWithTag (PutWithTags (fun (_ : String) => false)
        (PutWithTags (fun (_ : String) => false)
          (⟨[]⟩ : DB String) "k" "hello" ["T"]).1
        "k" "hello" ["T"]).1 "T" =
        (["hello"], none,
          (PutWithTags (fun (_ : String) => false)
            (PutWithTags (fun (_ : String) => false)
              (⟨[]⟩ : DB String) "k" "hello" ["T"]).1
            "k" "hello" ["T"]).1)) :=
  ⟨by decide,
    C3_idempotent_tagging (fun _ => false) ⟨[]⟩ "k" "hello" "T" rfl (by decide) rfl⟩

/-! ## C5: decode errors on the read path -/

/-- C5 (code_bug evidence): both `Get`s discard the gob `Decode` error
(part_000 line 195, skv.go line 121).  On a store of element type
`String`, the tag entry written by `PutWithTags("k", "hello", ["T"])`
holds set-encoded bytes that do not decode as a `String`
(`decodeVal = none`), yet `Get("db_tag_T")` returns the zero value `""`
with a nil error in both variants, and `GetAll` succeeds over the whole
store with a nil error instead of failing fast. -/
theorem C5_decode_error_swallowed :
    decodeVal (T := String) (.encSet ["k"]) = none ∧
    (PutWithTags (fun (_ : String) => false) (⟨[]⟩ : DB String) "k" "hello" ["T"]).1.lookup
        "db_tag_T" = some (.good (.encSet ["k"])) ∧
    Get (PutWithTags (fun (_ : String) => false)
        (⟨[]⟩ : DB String) "k" "hello" ["T"]).1 "db_tag_T" = ("", none) ∧
    Bolt.Get (PutWithTags (fun (_ : String) => false)
        (⟨[]⟩ : DB String) "k" "hello" ["T"]).1 "db_tag_T" = ("", none) ∧
    GetAll (PutWithTags (fun (_ : String) => false)
        (⟨[]⟩ : DB String) "k" "hello" ["T"]).1 = (["", "hello"], none) := by
  refine ⟨rfl, rfl, rfl, rfl, rfl⟩

/-! ## C10: tag entries share the primary keyspace -/

theorem engineGet_ok_iff (db : DB T) (k : String) (b : GobBytes T) :
    engineGet db k = .ok b ↔ db.lookup k = some (.good b) := by
  unfold engineGet
  cases h : db.lookup k with
  | none => simp
  | some s =>
    cases s with
    | bad => simp
    | good b2 => simp

theorem lookup_mem_entries (db : DB T) (k : String) (s : Stored T)
    (h : db.lookup k = some s) : (k, s) ∈ db.entries := by
  unfold DB.lookup at h
  cases hf : db.entries.find? (fun e => e.1 == k) with
  | none => rw [hf] at h; simp at h
  | some a =>
    rw [hf] at h
    simp at h
    have hmem := List.mem_of_find?_eq_some hf
    have hpred := List.find?_some hf
    have hkey : a.1 = k := by simpa using hpred
    have : a = (k, s) := by
      rcases a with ⟨a1, a2⟩
      simp only at h hkey
      rw [hkey, h]
    rwa [this] at hmem

theorem lookup_some_key_mem (db : DB T) (k : String) (s : Stored T)
    (h : db.lookup k = some s) : k ∈ db.entries.map Prod.fst :=
  List.mem_map.mpr ⟨(k, s), lookup_mem_entries db k s h, rfl⟩

theorem Get_snd_none_of_good (db : DB T) (hgood : ∀ e ∈ db.entries, e.2 ≠ Stored.bad)
    (k : String) (hk : k ∈ db.entries.map Prod.fst) : (Get db k).2 = none := by
  cases hl : db.lookup k with
  | none =>
    rcases List.mem_map.mp hk with ⟨e, he, hke⟩
    exact absurd hke ((lookup_none_iff db k).mp hl e he)
  | some s =>
    cases s with
    | bad => exact absurd rfl (hgood _ (lookup_mem_entries db k _ hl))
    | good b => rw [Get_eq_lookup, hl]

theorem getLoop_total (db : DB T) (ks : List String)
    (h : ∀ k2 ∈ ks, (Get db k2).2 = none) (acc : List T) :
    getLoop db acc ks = (acc ++ ks.map (fun k2 => (Get db k2).1), none) := by
  induction ks generalizing acc with
  | nil => simp [getLoop]
  | cons a rest ih =>
    rcases hg : Get db a with ⟨item, o⟩
    have ho : o = none := by
      have := h a (List.mem_cons_self a rest)
      rw [hg] at this
      exact this
    subst ho
    simp only [getLoop, hg]
    rw [ih (fun k2 hk2 => h k2 (List.mem_cons_of_mem a hk2)) (acc ++ [item])]
    simp [hg]

theorem putEntries_good (k : String) (b : GobBytes T) (l : List (String × Stored T))
    (h : ∀ e ∈ l, e.2 ≠ Stored.bad) :
    ∀ e ∈ putEntries k (.good b) l, e.2 ≠ Stored.bad := by
  induction l with
  | nil =>
    intro e he
    simp only [putEntries, List.mem_singleton] at he
    subst he
    simp
  | cons a rest ih =>
    intro e he
    simp only [putEntries] at he
    by_cases h1 : k = a.1
    · simp only [h1, if_true] at he
      rcases List.mem_cons.mp he with rfl | hr
      · simp
      · exact h e (List.mem_cons_of_mem a hr)
    · simp only [h1, if_false] at he
      by_cases h2 : keyLt k a.1
      · simp only [h2, if_true] at he
        rcases List.mem_cons.mp he with rfl | hr
        · simp
        · exact h e hr
      · simp only [h2, if_false] at he
        rcases List.mem_cons.mp he with rfl | hr
        · exact h e (List.mem_cons_self e rest)
        · exact ih (fun e2 he2 => h e2 (List.mem_cons_of_mem a he2)) e hr

theorem put_good (db : DB T) (k : String) (b : GobBytes T)
    (h : ∀ e ∈ db.entries, e.2 ≠ Stored.bad) :
    ∀ e ∈ (db.put k (.good b)).entries, e.2 ≠ Stored.bad :=
  putEntries_good k b db.entries h

/-- Case analysis of the `saveTags` body for one tag: either the key is
already a member and the store is untouched, or the tag entry is
overwritten with a set containing the key. -/
theorem saveTagsOne_cases (db : DB T) (k t : String) :
    (∃ S, db.lookup (tagKeyOf t) = some (.good (.encSet S)) ∧ k ∈ S ∧
      saveTagsOne db k t = db) ∨
    (∃ S, saveTagsOne db k t = db.put (tagKeyOf t) (.good (.encSet S)) ∧ k ∈ S) := by
  cases heg : engineGet db (tagKeyOf t) with
  | error e =>
    right
    refine ⟨setInsert k [], by simp [saveTagsOne, heg], by simp [setInsert]⟩
  | ok b =>
    cases b with
    | encVal w =>
      right
      refine ⟨setInsert k [], by simp [saveTagsOne, heg, decodeSet], by simp [setInsert]⟩
    | encSet S0 =>
      by_cases hm : k ∈ S0
      · left
        exact ⟨S0, (engineGet_ok_iff db (tagKeyOf t) (.encSet S0)).mp heg, hm,
          by simp [saveTagsOne, heg, decodeSet, hm]⟩
      · right
        refine ⟨setInsert k S0, by simp [saveTagsOne, heg, decodeSet, hm, setInsert], ?_⟩
        simp [setInsert, hm]

theorem isPrefixOf_self (l : List Char) : l.isPrefixOf l = true := by
  induction l with
  | nil => rfl
  | cons a rest ih => simp [List.isPrefixOf, ih]

/-- C10: after `PutWithTags(k, v, [t])` on any store with readable
entries, the member set is stored as an ordinary entry under the key
`"db_tag_" ++ t` in the primary keyspace: `GetKeys` lists that key,
`GetAll` reads every live key (including the tag entry) through `Get`
with a nil error, the `T`-decode of the tag entry's set bytes fails so
`Get` on the tag key yields the zero value, and a prefix scan whose
prefix is the tag key itself decodes the tag entry as a `T` as well. -/
theorem C10_tag_entries_share_keyspace (isNil : T → Bool) (db : DB T) (k : String)
    (v : T) (t : String) (hv : isNil v = false)
    (hgood : ∀ e ∈ db.entries, e.2 ≠ Stored.bad) :
    let db1 := (PutWithTags isNil db k v [t]).1
    tagKeyOf t = "db_tag_" ++ t ∧
    (∃ S, db1.lookup (tagKeyOf t) = some (.good (.encSet S)) ∧ k ∈ S ∧
      decodeVal (T := T) (.encSet S) = none) ∧
    tagKeyOf t ∈ (GetKeys db1).1 ∧
    GetAll db1 = ((GetKeys db1).1.map (fun k2 => (Get db1 k2).1), none) ∧
    Get db1 (tagKeyOf t) = (default, none) ∧
    (default : T) ∈ (getWithPrefixScan db1 (tagKeyOf t)).1 := by
  intro db1
  have hdb1 : db1 = saveTagsOne (db.put k (.good (.encVal v))) k t := by
    show (PutWithTags isNil db k v [t]).1 = _
    rw [putWithTags_single isNil db k v t hv]
  have hgoodP : ∀ e ∈ (db.put k (.good (.encVal v))).entries, e.2 ≠ Stored.bad :=
    put_good db k _ hgood
  have hmain : (∃ S, db1.lookup (tagKeyOf t) = some (.good (.encSet S)) ∧ k ∈ S) ∧
      (∀ e ∈ db1.entries, e.2 ≠ Stored.bad) := by
    rcases saveTagsOne_cases (db.put k (.good (.encVal v))) k t with
      ⟨S, hl, hm, he⟩ | ⟨S, he, hm⟩
    · rw [hdb1, he]
      exact ⟨⟨S, hl, hm⟩, hgoodP⟩
    · rw [hdb1, he]
      exact ⟨⟨S, lookup_put_self _ _ _, hm⟩, put_good _ _ _ hgoodP⟩
  rcases hmain with ⟨⟨S, hS, hkS⟩, hgood1⟩
  have hkeys : tagKeyOf t ∈ db1.entries.map Prod.fst :=
    lookup_some_key_mem db1 _ _ hS
  have hgetkeys : (GetKeys db1).1 = db1.entries.map Prod.fst := rfl
  refine ⟨rfl, ⟨S, hS, hkS, rfl⟩, by rw [hgetkeys]; exact hkeys, ?_, ?_, ?_⟩
  · show getLoop db1 [] (db1.entries.map Prod.fst) = _
    rw [getLoop_total db1 _ (fun k2 hk2 => Get_snd_none_of_good db1 hgood1 k2 hk2) []]
    simp [hgetkeys, GetKeys]
  · exact Get_of_lookup_set db1 _ S hS
  · show (default : T) ∈
      (getLoop db1 []
        ((db1.entries.filter (fun e => hasPrefixKey (tagKeyOf t) e.1)).map
          (fun e => e.1))).1
    have hself : hasPrefixKey (tagKeyOf t) (tagKeyOf t) = true := by
      simp [hasPrefixKey, isPrefixOf_self]
    have hentry : (tagKeyOf t, Stored.good (GobBytes.encSet S)) ∈
        db1.entries.filter (fun e => hasPrefixKey (tagKeyOf t) e.1) := by
      refine List.mem_filter.mpr ⟨lookup_mem_entries db1 _ _ hS, hself⟩
    have hsub : ∀ k2 ∈ (db1.entries.filter
        (fun e => hasPrefixKey (tagKeyOf t) e.1)).map (fun e => e.1),
        (Get db1 k2).2 = none := by
      intro k2 hk2
      rcases List.mem_map.mp hk2 with ⟨e, he, hke⟩
      have : e ∈ db1.entries := (List.mem_filter.mp he).1
      exact Get_snd_none_of_good db1 hgood1 k2
        (List.mem_map.mpr ⟨e, this, hke⟩)
    rw [getLoop_total db1 _ hsub []]
    simp only [List.nil_append]
    have : tagKeyOf t ∈ (db1.entries.filter
        (fun e => hasPrefixKey (tagKeyOf t) e.1)).map (fun e => e.1) :=
      List.mem_map.mpr ⟨(tagKeyOf t, Stored.good (GobBytes.encSet S)), hentry, rfl⟩
    have hget : (Get db1 (tagKeyOf t)).1 = (default : T) := by
      rw [Get_of_lookup_set db1 _ S hS]
    rw [← hget]
    exact List.mem_map.mpr ⟨tagKeyOf t, this, rfl⟩

/-- Witness for C10 at a concrete store, key, value and tag. -/
theorem C10_tag_entries_share_keyspace_witness :
    ((fun (_ : Nat) => false) (5 : Nat) = false) ∧
    tagKeyOf "T" ∈ (GetKeys (PutWithTags (fun (_ : Nat) => false)
      (⟨[]⟩ : DB Nat) "k" 5 ["T"]).1).1 :=
  ⟨rfl, (C10_tag_entries_share_keyspace (fun _ => false) ⟨[]⟩ "k" 5 "T" rfl
    (by decide)).2.2.1⟩

/-! ## C7: prefix scan — order lemmas for the key comparison -/

theorem charsLt_trans (a b c : List Char) (h1 : charsLt a b = true)
    (h2 : charsLt b c = true) : charsLt a c = true := by
  induction a generalizing b c with
  | nil =>
    cases b with
    | nil => simp [charsLt] at h1
    | cons b0 bs =>
      cases c with
      | nil => simp [charsLt] at h2
      | cons c0 cs => simp [charsLt]
  | cons a0 as ih =>
    cases b with
    | nil => simp [charsLt] at h1
    | cons b0 bs =>
      cases c with
      | nil => simp [charsLt] at h2
      | cons c0 cs =>
        simp only [charsLt] at h1 h2 ⊢
        by_cases hab : a0 = b0
        · subst hab
          simp only [if_pos rfl] at h1
          by_cases hbc : a0 = c0
          · subst hbc
            simp only [if_pos rfl] at h2 ⊢
            exact ih bs cs h1 h2
          · simp only [hbc, if_neg, if_false] at h2 ⊢
            exact h2
        · simp only [hab, if_false] at h1
          have hanb : a0.toNat < b0.toNat := by simpa using h1
          by_cases hbc : b0 = c0
          · subst hbc
            simp only [hab, if_false]
            simpa using hanb
          · simp only [hbc, if_false] at h2
            have hbnc : b0.toNat < c0.toNat := by simpa using h2
            have hanc : a0.toNat < c0.toNat := Nat.lt_trans hanb hbnc
            by_cases hac : a0 = c0
            · subst hac
              exact absurd hbnc (Nat.lt_asymm hanb)
            · simp only [hac, if_false]
              simpa using hanc

theorem prefix_not_lt (p l : List Char) (h : p.isPrefixOf l = true) :
    charsLt l p = false := by
  induction p generalizing l with
  | nil => cases l <;> simp [charsLt]
  | cons a p2 ih =>
    cases l with
    | nil => simp [List.isPrefixOf] at h
    | cons b l2 =>
      simp only [List.isPrefixOf, Bool.and_eq_true, beq_iff_eq] at h
      rcases h with ⟨rfl, hpre⟩
      simp only [charsLt, if_pos rfl]
      exact ih l2 hpre

theorem charsLt_convex (p x y : List Char) (hxp : charsLt x p = false)
    (hxy : charsLt x y = true) (hpy : p.isPrefixOf y = true) :
    p.isPrefixOf x = true := by
  induction p generalizing x y with
  | nil => simp [List.isPrefixOf]
  | cons a p2 ih =>
    cases x with
    | nil => simp [charsLt] at hxp
    | cons b x2 =>
      cases y with
      | nil => simp [charsLt] at hxy
      | cons c y2 =>
        simp only [List.isPrefixOf, Bool.and_eq_true, beq_iff_eq] at hpy
        rcases hpy with ⟨rfl, hpre⟩
        simp only [charsLt] at hxp hxy
        by_cases hba : b = a
        · subst hba
          simp only [if_pos rfl] at hxp hxy
          have hrec := ih x2 y2 hxp hxy hpre
          simp [List.isPrefixOf, hrec]
        · simp only [hba, if_false] at hxp hxy
          have h1 : ¬ b.toNat < a.toNat := by simpa using hxp
          have h2 : b.toNat < a.toNat := by simpa using hxy
          exact absurd h2 h1

theorem takeWhile_eq_filter_aux (p : String) (l : List (String × Stored T))
    (hge : ∀ e ∈ l, keyLt e.1 p = false)
    (hs : l.Pairwise (fun a b => keyLt a.1 b.1 = true)) :
    l.takeWhile (fun e => hasPrefixKey p e.1) =
      l.filter (fun e => hasPrefixKey p e.1) := by
  induction l with
  | nil => rfl
  | cons a rest ih =>
    rcases List.pairwise_cons.mp hs with ⟨hrel, hrest⟩
    by_cases hp : hasPrefixKey p a.1 = true
    · simp only [List.takeWhile_cons, List.filter_cons, hp, if_true]
      rw [ih (fun e he => hge e (List.mem_cons_of_mem a he)) hrest]
    · have hp2 : hasPrefixKey p a.1 = false := by
        cases hval : hasPrefixKey p a.1
        · rfl
        · exact absurd hval hp
      have hnone : ∀ e ∈ rest, hasPrefixKey p e.1 = false := by
        intro e he
        cases hval : hasPrefixKey p e.1
        · rfl
        · exfalso
          apply hp
          have h1 : charsLt a.1.data p.data = false := hge a (List.mem_cons_self a rest)
          have h2 : charsLt a.1.data e.1.data = true := hrel e he
          have h3 : p.data.isPrefixOf e.1.data = true := hval
          exact charsLt_convex p.data a.1.data e.1.data h1 h2 h3
      simp only [List.takeWhile_cons, List.filter_cons, hp2]
      simp only [Bool.false_eq_true, if_false]
      symm
      refine List.filter_eq_nil_iff.mpr ?_
      intro e he
      simp [hnone e he]

theorem seek_take_eq_filter (p : String) (l : List (String × Stored T))
    (hs : l.Pairwise (fun a b => keyLt a.1 b.1 = true)) :
    (l.dropWhile (fun e => keyLt e.1 p)).takeWhile (fun e => hasPrefixKey p e.1) =
      l.filter (fun e => hasPrefixKey p e.1) := by
  induction l with
  | nil => rfl
  | cons a rest ih =>
    rcases List.pairwise_cons.mp hs with ⟨hrel, hrest⟩
    by_cases hd : keyLt a.1 p = true
    · have hp : hasPrefixKey p a.1 = false := by
        cases hval : hasPrefixKey p a.1
        · rfl
        · exfalso
          have := prefix_not_lt p.data a.1.data hval
          rw [show charsLt a.1.data p.data = keyLt a.1 p from rfl, hd] at this
          exact Bool.true_eq_false.mp this
      simp only [List.dropWhile_cons, hd, if_true, List.filter_cons, hp]
      simp only [Bool.false_eq_true, if_false]
      exact ih hrest
    · have hd2 : keyLt a.1 p = false := by
        cases hval : keyLt a.1 p
        · rfl
        · exact absurd hval hd
      have hge : ∀ e ∈ a :: rest, keyLt e.1 p = false := by
        intro e he
        rcases List.mem_cons.mp he with rfl | hr
        · exact hd2
        · cases hval : keyLt e.1 p
          · rfl
          · exfalso
            have htr := charsLt_trans a.1.data e.1.data p.data (hrel e hr) hval
            rw [show charsLt a.1.data p.data = keyLt a.1 p from rfl, hd2] at htr
            exact Bool.false_ne_true htr
      simp only [List.dropWhile_cons, hd2]
      simp only [Bool.false_eq_true, if_false]
      exact takeWhile_eq_filter_aux p (a :: rest) hge hs

theorem lookup_of_mem_sorted (db : DB T)
    (hs : db.entries.Pairwise (fun a b => keyLt a.1 b.1 = true)) :
    ∀ e ∈ db.entries, db.lookup e.1 = some e.2 := by
  rcases db with ⟨l⟩
  simp only [DB.lookup]
  induction l with
  | nil => simp
  | cons a rest ih =>
    rcases List.pairwise_cons.mp hs with ⟨hrel, hrest⟩
    intro e he
    rcases List.mem_cons.mp he with rfl | hr
    · simp [List.find?]
    · have hne : (a.1 == e.1) = false := by
        have hlt : keyLt a.1 e.1 = true := hrel e hr
        cases hbe : (a.1 == e.1)
        · rfl
        · exfalso
          have heq : a.1 = e.1 := by simpa using hbe
          rw [heq, keyLt_irrefl] at hlt
          exact Bool.false_ne_true hlt
      simp only [List.find?, hne]
      exact ih hrest e hr

/-- C7: for a key-ordered store, both `GetWithPrefix` implementations
return exactly the decoded values of the entries whose key carries the
prefix, in lexicographic key order, with a nil error; when nothing
matches, the result is the empty sequence, not an error.  (Entries whose
engine read fails are excluded for the bitcask scan variant, which reads
members back through `Get`.) -/
theorem C7_prefix_scan (db : DB T) (p : String)
    (hs : db.entries.Pairwise (fun a b => keyLt a.1 b.1 = true))
    (hgoodm : ∀ e ∈ db.entries, hasPrefixKey p e.1 = true → e.2 ≠ Stored.bad) :
    let ms := db.entries.filter (fun e => hasPrefixKey p e.1)
    Bolt.getWithPrefixSeek db p = (ms.map (fun e => decodeValD e.2), none) ∧
    getWithPrefixScan db p = (ms.map (fun e => decodeValD e.2), none) ∧
    (ms.map Prod.fst).Pairwise (fun a b => keyLt a b = true) ∧
    ((∀ e ∈ db.entries, hasPrefixKey p e.1 = false) →
      Bolt.getWithPrefixSeek db p = ([], none) ∧
      getWithPrefixScan db p = ([], none)) := by
  intro ms
  have hms : ms = db.entries.filter (fun e => hasPrefixKey p e.1) := rfl
  have hmem : ∀ e ∈ ms, e ∈ db.entries := fun e he => (List.mem_filter.mp he).1
  have hseek : Bolt.getWithPrefixSeek db p = (ms.map (fun e => decodeValD e.2), none) := by
    unfold Bolt.getWithPrefixSeek
    rw [seek_take_eq_filter p db.entries hs]
  have hget1 : ∀ e ∈ ms, Get db e.1 = (decodeValD e.2, none) := by
    intro e he
    have hl := lookup_of_mem_sorted db hs e (hmem e he)
    rw [Get_eq_lookup, hl]
    cases hv : e.2 with
    | bad =>
      exact absurd hv (hgoodm e (hmem e he) (List.mem_filter.mp he).2)
    | good b => simp [decodeValD]
  have hscan : getWithPrefixScan db p = (ms.map (fun e => decodeValD e.2), none) := by
    unfold getWithPrefixScan
    rw [← hms]
    rw [getLoop_total db (ms.map (fun e => e.1)) ?hall []]
    case hall =>
      intro k2 hk2
      rcases List.mem_map.mp hk2 with ⟨e, he, rfl⟩
      rw [hget1 e he]
    simp only [List.nil_append, List.map_map]
    congr 1
    refine List.map_congr_left ?_
    intro e he
    simp only [Function.comp]
    rw [hget1 e he]
  refine ⟨hseek, hscan, ?_, ?_⟩
  · have hsub : ms.Pairwise (fun a b => keyLt a.1 b.1 = true) :=
      List.Pairwise.sublist (List.filter_sublist db.entries) hs
    exact List.pairwise_map.mpr hsub
  · intro hnone
    have hnil : ms = [] := by
      rw [hms]
      refine List.filter_eq_nil_iff.mpr ?_
      intro e he
      simp [hnone e he]
    rw [hseek, hscan, hnil]
    exact ⟨rfl, rfl⟩

/-- Witness for C7 on the spec's own example store
`{"A-1", "A-2", "B-1"}` with prefix `"A-"` and a non-matching prefix. -/
theorem C7_prefix_scan_witness :
    Bolt.getWithPrefixSeek
      (⟨[("A-1", .good (.encVal "a1")), ("A-2", .good (.encVal "a2")),
         ("B-1", .good (.encVal "b1"))]⟩ : DB String) "A-" = (["a1", "a2"], none) ∧
    getWithPrefixScan
      (⟨[("A-1", .good (.encVal "a1")), ("A-2", .good (.encVal "a2")),
         ("B-1", .good (.encVal "b1"))]⟩ : DB String) "A-" = (["a1", "a2"], none) ∧
    Bolt.getWithPrefixSeek
      (⟨[("A-1", .good (.encVal "a1")), ("A-2", .good (.encVal "a2")),
         ("B-1", .good (.encVal "b1"))]⟩ : DB String) "C-" = ([], none) := by
  refine ⟨?_, ?_, ?_⟩
  · exact (C7_prefix_scan
      (⟨[("A-1", .good (.encVal "a1")), ("A-2", .good (.encVal "a2")),
         ("B-1", .good (.encVal "b1"))]⟩ : DB String) "A-" (by decide) (by decide)).1
  · exact (C7_prefix_scan
      (⟨[("A-1", .good (.encVal "a1")), ("A-2", .good (.encVal "a2")),
         ("B-1", .good (.encVal "b1"))]⟩ : DB String) "A-" (by decide) (by decide)).2.1
  · exact ((C7_prefix_scan
      (⟨[("A-1", .good (.encVal "a1")), ("A-2", .good (.encVal "a2")),
         ("B-1", .good (.encVal "b1"))]⟩ : DB String) "C-" (by decide)
      (by decide)).2.2.2 (by decide)).1

/-! ## C9: the tag lock serializes tag operations -/

theorem mem_setInsert_self (k : String) (s : List String) : k ∈ setInsert k s := by
  unfold setInsert
  by_cases h : k ∈ s
  · simp [h]
  · simp [h]

theorem mem_setInsert_of_mem (k x : String) (s : List String) (h : x ∈ s) :
    x ∈ setInsert k s := by
  unfold setInsert
  by_cases hk : k ∈ s
  · simpa [hk]
  · simp [hk, List.mem_append]
    exact Or.inl h

theorem updThr_same (f : Bool → TagThread) (t : Bool) (v : TagThread) :
    updThr f t v t = v := by simp [updThr]

theorem updThr_other (f : Bool → TagThread) (t : Bool) (v : TagThread) (b : Bool)
    (h : b ≠ t) : updThr f t v b = f b := by simp [updThr, h]

theorem tagInv_init (key : Bool → String) (s0 : List String) :
    TagInv key (initTags s0) := by
  refine ⟨?_, ?_, ?_, ?_⟩ <;> intro t <;> simp [initTags]

theorem tagInv_step (key : Bool → String) (c : TagSys) (u : Bool)
    (hinv : TagInv key c) : TagInv key (tagStep key c u) := by
  obtain ⟨h1, h2, h3, h4⟩ := hinv
  by_cases hp0 : (c.thr u).pc = 0
  · cases hlo : c.lockOwner with
    | none =>
      have hstep : tagStep key c u =
          { lockOwner := some u, tagSet := c.tagSet,
            thr := updThr c.thr u { pc := 1, snap := (c.thr u).snap } } := by
        simp [tagStep, hp0, hlo]
      rw [hstep]
      refine ⟨?_, ?_, ?_, ?_⟩ <;> intro t <;> dsimp only [updThr]
      · by_cases htu : t = u
        · rw [if_pos htu]; simp
        · rw [if_neg htu]; exact h1 t
      · by_cases htu : t = u
        · intro _; rw [htu]
        · intro hcs
          rw [if_neg htu] at hcs
          have e1 := h2 t hcs
          rw [hlo] at e1
          exact absurd e1 (by simp)
      · by_cases htu : t = u
        · intro hcs
          rw [if_pos htu] at hcs
          simp at hcs
        · intro hcs
          rw [if_neg htu] at hcs
          have e1 := h2 t ⟨by omega, by omega⟩
          rw [hlo] at e1
          exact absurd e1 (by simp)
      · by_cases htu : t = u
        · intro hcs
          rw [if_pos htu] at hcs
          simp at hcs
        · intro hcs
          rw [if_neg htu] at hcs
          exact h4 t hcs
    | some w =>
      have hstep : tagStep key c u = c := by simp [tagStep, hp0, hlo]
      rw [hstep]
      exact ⟨h1, h2, h3, h4⟩
  · by_cases hp1 : (c.thr u).pc = 1
    · have hown : c.lockOwner = some u := h2 u ⟨by omega, by omega⟩
      have hstep : tagStep key c u =
          { lockOwner := c.lockOwner, tagSet := c.tagSet,
            thr := updThr c.thr u { pc := 2, snap := c.tagSet } } := by
        simp [tagStep, hp0, hp1]
      rw [hstep]
      refine ⟨?_, ?_, ?_, ?_⟩ <;> intro t <;> dsimp only [updThr]
      · by_cases htu : t = u
        · rw [if_pos htu]; simp
        · rw [if_neg htu]; exact h1 t
      · by_cases htu : t = u
        · intro _; rw [htu]; exact hown
        · intro hcs
          rw [if_neg htu] at hcs
          exact h2 t hcs
      · by_cases htu : t = u
        · intro _
          rw [if_pos htu]
        · intro hcs
          rw [if_neg htu] at hcs ⊢
          exact h3 t hcs
      · by_cases htu : t = u
        · intro hcs
          rw [if_pos htu] at hcs
          simp at hcs
        · intro hcs
          rw [if_neg htu] at hcs
          exact h4 t hcs
    · by_cases hp2 : (c.thr u).pc = 2
      · have hown : c.lockOwner = some u := h2 u ⟨by omega, by omega⟩
        have hsnap : (c.thr u).snap = c.tagSet := h3 u hp2
        have hstep : tagStep key c u =
            { lockOwner := c.lockOwner,
              tagSet := setInsert (key u) (c.thr u).snap,
              thr := updThr c.thr u { pc := 3, snap := (c.thr u).snap } } := by
          simp [tagStep, hp0, hp1, hp2]
        rw [hstep]
        refine ⟨?_, ?_, ?_, ?_⟩ <;> intro t <;> dsimp only [updThr]
        · by_cases htu : t = u
          · rw [if_pos htu]; simp
          · rw [if_neg htu]; exact h1 t
        · by_cases htu : t = u
          · intro _; rw [htu]; exact hown
          · intro hcs
            rw [if_neg htu] at hcs
            exact h2 t hcs
        · by_cases htu : t = u
          · intro hcs
            rw [if_pos htu] at hcs
            simp at hcs
          · intro hcs
            rw [if_neg htu] at hcs
            have e1 := h2 t ⟨by omega, by omega⟩
            rw [hown] at e1
            exact absurd (Option.some.inj e1).symm htu
        · by_cases htu : t = u
          · intro _
            rw [htu]
            exact mem_setInsert_self (key u) (c.thr u).snap
          · intro hcs
            rw [if_neg htu] at hcs
            have hx := h4 t hcs
            rw [hsnap]
            exact mem_setInsert_of_mem (key u) (key t) c.tagSet hx
      · by_cases hp3 : (c.thr u).pc = 3
        · have hown : c.lockOwner = some u := h2 u ⟨by omega, by omega⟩
          have hstep : tagStep key c u =
              { lockOwner := none, tagSet := c.tagSet,
                thr := updThr c.thr u { pc := 4, snap := (c.thr u).snap } } := by
            simp [tagStep, hp0, hp1, hp2, hp3]
          rw [hstep]
          refine ⟨?_, ?_, ?_, ?_⟩ <;> intro t <;> dsimp only [updThr]
          · by_cases htu : t = u
            · rw [if_pos htu]
            · rw [if_neg htu]; exact h1 t
          · by_cases htu : t = u
            · intro hcs
              rw [if_pos htu] at hcs
              simp at hcs
            · intro hcs
              rw [if_neg htu] at hcs
              have e1 := h2 t hcs
              rw [hown] at e1
              exact absurd (Option.some.inj e1).symm htu
          · by_cases htu : t = u
            · intro hcs
              rw [if_pos htu] at hcs
              simp at hcs
            · intro hcs
              rw [if_neg htu] at hcs ⊢
              exact h3 t hcs
          · by_cases htu : t = u
            · intro _
              rw [htu]
              exact h4 u (by omega)
            · intro hcs
              rw [if_neg htu] at hcs
              exact h4 t hcs
        · have hstep : tagStep key c u = c := by
            simp [tagStep, hp0, hp1, hp2, hp3]
          rw [hstep]
          exact ⟨h1, h2, h3, h4⟩

theorem tagInv_run (key : Bool → String) (sched : List Bool) (c : TagSys)
    (h : TagInv key c) : TagInv key (runTags key sched c) := by
  induction sched generalizing c with
  | nil => exact h
  | cons u rest ih => exact ih (tagStep key c u) (tagInv_step key c u h)

/-- C9: `saveTags` and `GetWithTag` hold one exclusive per-store mutex
(`kvs.mu`) for the whole read-modify-write cycle on the tag entry.  In
the interleaving model of two threads running the `saveTags` critical
section for the same tag: under every schedule at most one thread is
inside the critical section, and when both threads have completed, the
stored member set contains both inserted keys — no lost update. -/
theorem C9_tag_lock_serializes (key : Bool → String) (s0 : List String)
    (sched : List Bool) :
    (inCSb (runTags key sched (initTags s0)) false &&
      inCSb (runTags key sched (initTags s0)) true) = false ∧
    (((runTags key sched (initTags s0)).thr false).pc = 4 →
      ((runTags key sched (initTags s0)).thr true).pc = 4 →
        key false ∈ (runTags key sched (initTags s0)).tagSet ∧
        key true ∈ (runTags key sched (initTags s0)).tagSet) := by
  have hinv := tagInv_run key sched (initTags s0) (tagInv_init key s0)
  obtain ⟨h1, h2, h3, h4⟩ := hinv
  constructor
  · cases hf : inCSb (runTags key sched (initTags s0)) false with
    | false => rfl
    | true =>
      cases ht : inCSb (runTags key sched (initTags s0)) true with
      | false => rfl
      | true =>
        exfalso
        simp only [inCSb, Bool.and_eq_true, decide_eq_true_eq] at hf ht
        have e1 := h2 false ⟨hf.1, hf.2⟩
        have e2 := h2 true ⟨ht.1, ht.2⟩
        rw [e1] at e2
        simp at e2
  · intro hf ht
    exact ⟨h4 false (by omega), h4 true (by omega)⟩

/-- Witness for C9: a concrete schedule under which both threads finish,
with both keys present in the final member set. -/
theorem C9_tag_lock_serializes_witness :
    ((runTags (fun b => if b then "k1" else "k0")
        [false, false, false, false, true, true, true, true]
        (initTags [])).thr false).pc = 4 ∧
    ((runTags (fun b => if b then "k1" else "k0")
        [false, false, false, false, true, true, true, true]
        (initTags [])).thr true).pc = 4 ∧
    "k0" ∈ (runTags (fun b => if b then "k1" else "k0")
        [false, false, false, false, true, true, true, true]
        (initTags [])).tagSet ∧
    "k1" ∈ (runTags (fun b => if b then "k1" else "k0")
        [false, false, false, false, true, true, true, true]
        (initTags [])).tagSet := by
  refine ⟨rfl, rfl, ?_⟩
  exact (C9_tag_lock_serializes (fun b => if b then "k1" else "k0") []
    [false, false, false, false, true, true, true, true]).2 rfl rfl

end Skv
